import Mathlib

/-!
Verification of the particle-swarm optimizer (PSO) for the Michalewicz
function.  The Python source is embedded shallowly: numpy vectors become
lists over a linear ordered field `α` (instantiated at `ℚ` for concrete
evaluation and at `ℝ` for the analytic facts), elementwise numpy
operations become `zipWith`/`map`, and the implicit global random stream
becomes explicitly passed lists of draws.  The objective function is a
parameter `f : List α → α`, matching its role as a pluggable collaborator;
the concrete Michalewicz objective is embedded over `ℝ`.
-/

namespace PSO

/-- Particle state: the four fields set in `Particle.__init__`. -/
structure Particle (α : Type) where
  position : List α
  velocity : List α
  best_position : List α
  best_value : α
deriving DecidableEq

/-- Elementwise vector addition (numpy `+` on equal-length arrays). -/
def vadd {α : Type} [Add α] (a b : List α) : List α := List.zipWith (fun x y => x + y) a b

/-- Elementwise vector subtraction (numpy `-`). -/
def vsub {α : Type} [Sub α] (a b : List α) : List α := List.zipWith (fun x y => x - y) a b

/-- Elementwise vector multiplication (numpy `*`). -/
def vmul {α : Type} [Mul α] (a b : List α) : List α := List.zipWith (fun x y => x * y) a b

/-- Scalar times vector (numpy scalar broadcast). -/
def smul {α : Type} [Mul α] (c : α) (a : List α) : List α := a.map (fun x => c * x)

/-- `np.clip(x, lo, hi) = min (max x lo) hi` applied to one coordinate. -/
def clip {α : Type} [LinearOrder α] (lo hi x : α) : α := min (max x lo) hi

/-- `np.random.uniform(lo, hi, n)`: each returned coordinate is
`lo + u * (hi - lo)` for a unit draw `u` (numpy draws `u` from `[0,1)`).
The unit draws are passed in explicitly. -/
def sampleUniform {α : Type} [Field α] (lo hi : α) (us : List α) : List α :=
  us.map (fun u => lo + u * (hi - lo))

/-- `Particle.__init__`: sample the position uniformly in `[lo, hi]`,
zero the velocity, and record the sampled position and its objective
value as the personal best.  No validation of any kind is performed. -/
def Particle.init {α : Type} [LinearOrderedField α] (f : List α → α) (lo hi : α)
    (us : List α) : Particle α :=
  let pos := sampleUniform lo hi us
  { position := pos
    velocity := List.replicate us.length 0
    best_position := pos
    best_value := f pos }

/-- `Particle.update_velocity`: given the global best position and the two
per-dimension uniform draw vectors `r1`, `r2`, set
`velocity = w * velocity + c1 * r1 * (best_position - position)
 + c2 * r2 * (gbest - position)` elementwise.  No clamp is applied and no
other field is touched. -/
def Particle.update_velocity {α : Type} [LinearOrderedField α] (w c1 c2 : α)
    (gbest r1 r2 : List α) (p : Particle α) : Particle α :=
  let cognitive := vmul (smul c1 r1) (vsub p.best_position p.position)
  let social := vmul (smul c2 r2) (vsub gbest p.position)
  { p with velocity := vadd (vadd (smul w p.velocity) cognitive) social }

/-- `Particle.update_position`: add the velocity to the position, clip every
coordinate into `[lo, hi]`, evaluate the objective there, and update the
personal best exactly on strict improvement. -/
def Particle.update_position {α : Type} [LinearOrderedField α] (f : List α → α)
    (lo hi : α) (p : Particle α) : Particle α :=
  let pos := (vadd p.position p.velocity).map (clip lo hi)
  let v := f pos
  if v < p.best_value then
    { p with position := pos, best_position := pos, best_value := v }
  else
    { p with position := pos }

/-- The swarm-level state of `pso()`: the particle list and the global
best record (`global_best_position`, `global_best_value`). -/
structure SwarmState (α : Type) where
  swarm : List (Particle α)
  gbest_pos : List α
  gbest_val : α
deriving DecidableEq

/-- Python's `min(swarm, key=lambda p: p.best_value)`: the first particle
attaining the minimal personal best (later particles replace the running
minimum only on strict improvement).  `none` on the empty list (where the
Python call would raise `ValueError`). -/
def bestOf {α : Type} [LinearOrder α] : List (Particle α) → Option (Particle α)
  | [] => none
  | p :: ps => some (ps.foldl (fun q r => if r.best_value < q.best_value then r else q) p)

/-- Swarm initialization (lines 69-73 of the source): build the particles
from the per-particle unit draws, then set the global best from the
best initial particle.  The `none` branch is unreachable for the nonempty
swarms the program constructs. -/
def initSwarm {α : Type} [LinearOrderedField α] (f : List α → α) (lo hi : α)
    (uss : List (List α)) : SwarmState α :=
  let swarm := uss.map (Particle.init f lo hi)
  match bestOf swarm with
  | some gp => { swarm := swarm, gbest_pos := gp.best_position, gbest_val := gp.best_value }
  | none => { swarm := swarm, gbest_pos := [], gbest_val := 0 }

/-- One particle's full per-iteration update: `update_velocity` against the
previous iteration's global best, then `update_position`. -/
def stepOne {α : Type} [LinearOrderedField α] (f : List α → α) (lo hi w c1 c2 : α)
    (gbest : List α) (p : Particle α) (r : List α × List α) : Particle α :=
  (p.update_velocity w c1 c2 gbest r.1 r.2).update_position f lo hi

/-- The per-iteration particle loop (lines 82-84): every particle is updated
against the same snapshot `gbest` of the previous global best position,
consuming its own pair of draw vectors. -/
def stepParticles {α : Type} [LinearOrderedField α] (f : List α → α) (lo hi w c1 c2 : α)
    (gbest : List α) (swarm : List (Particle α)) (rs : List (List α × List α)) :
    List (Particle α) :=
  List.zipWith (stepOne f lo hi w c1 c2 gbest) swarm rs

/-- The particle loop expressed over an explicit processing order: a list of
(particle, draws) pairs, updated in list order. -/
def stepPairs {α : Type} [LinearOrderedField α] (f : List α → α) (lo hi w c1 c2 : α)
    (gbest : List α) (l : List (Particle α × (List α × List α))) : List (Particle α) :=
  l.map (fun pr => stepOne f lo hi w c1 c2 gbest pr.1 pr.2)

/-- The global best update (lines 87-90): recompute the best particle and
overwrite the global record only on strict improvement. -/
def updateGlobal {α : Type} [LinearOrderedField α] (swarm : List (Particle α))
    (g : List α × α) : List α × α :=
  match bestOf swarm with
  | some cb => if cb.best_value < g.2 then (cb.best_position, cb.best_value) else g
  | none => g

/-- One iteration of the `while` loop body: update every particle against the
previous global best snapshot, then resynchronize the global best. -/
def psoIter {α : Type} [LinearOrderedField α] (f : List α → α) (lo hi w c1 c2 : α)
    (rs : List (List α × List α)) (st : SwarmState α) : SwarmState α :=
  let swarm := stepParticles f lo hi w c1 c2 st.gbest_pos st.swarm rs
  let g := updateGlobal swarm (st.gbest_pos, st.gbest_val)
  { swarm := swarm, gbest_pos := g.1, gbest_val := g.2 }

/-- `n` iterations of the loop body; `rnd k` supplies iteration `k`'s
per-particle draws. -/
def psoIterN {α : Type} [LinearOrderedField α] (f : List α → α) (lo hi w c1 c2 : α)
    (rnd : ℕ → List (List α × List α)) : ℕ → SwarmState α → SwarmState α
  | 0, st => st
  | n + 1, st =>
      psoIterN f lo hi w c1 c2 (fun k => rnd (k + 1)) n
        (psoIter f lo hi w c1 c2 (rnd 0) st)

/-- The bounded optimization loop (lines 81-123) with its stop criterion
`|global_best_value - gmin| <= tol`.  The returned flag is the source's
`global_min_found`: `true` is the spec's CONVERGED terminal state, `false`
(budget exhausted) is EXHAUSTED. -/
def psoLoop {α : Type} [LinearOrderedField α] (f : List α → α) (lo hi w c1 c2 gmin tol : α)
    (rnd : ℕ → List (List α × List α)) : ℕ → SwarmState α → SwarmState α × Bool
  | 0, st => (st, false)
  | n + 1, st =>
      let st' := psoIter f lo hi w c1 c2 (rnd 0) st
      if |st'.gbest_val - gmin| ≤ tol then (st', true)
      else psoLoop f lo hi w c1 c2 gmin tol (fun k => rnd (k + 1)) n st'

/-- A single particle's lifetime event: one velocity update (with its draws
and global-best snapshot) or one position update. -/
inductive ParticleOp (α : Type) where
  | velUpd (gbest r1 r2 : List α)
  | posUpd

/-- Apply one lifetime event to a particle. -/
def applyOp {α : Type} [LinearOrderedField α] (f : List α → α) (lo hi w c1 c2 : α)
    (p : Particle α) : ParticleOp α → Particle α
  | .velUpd gbest r1 r2 => p.update_velocity w c1 c2 gbest r1 r2
  | .posUpd => p.update_position f lo hi

/-- Apply a sequence of lifetime events in order. -/
def applyOps {α : Type} [LinearOrderedField α] (f : List α → α) (lo hi w c1 c2 : α)
    (p : Particle α) (ops : List (ParticleOp α)) : Particle α :=
  ops.foldl (applyOp f lo hi w c1 c2) p

/-- All unordered pairs `(l[i], l[j])` with `i < j`, in the source's
double-loop order. -/
def pairsOf {β : Type} : List β → List (β × β)
  | [] => []
  | x :: xs => xs.map (fun y => (x, y)) ++ pairsOf xs

/-- `np.linalg.norm`: the Euclidean norm of a vector. -/
noncomputable def normEuclid (v : List ℝ) : ℝ :=
  Real.sqrt ((v.map (fun x => x ^ 2)).sum)

/-- The diversity computation (lines 98-105): the mean of the pairwise
Euclidean distances.  With fewer than two particles there are no pairs and
`np.mean([])` is NaN; that case is modelled as `none`. -/
noncomputable def diversity (positions : List (List ℝ)) : Option ℝ :=
  let dists := (pairsOf positions).map (fun pq => normEuclid (vsub pq.1 pq.2))
  if dists.length = 0 then none else some (dists.sum / (dists.length : ℝ))

/-- The summation loop of `michalewicz`, carrying the 0-based index `i`:
each term is `sin(xi) * sin((i+1) * xi^2 / pi) ^ (2*m)`. -/
noncomputable def michSum (m : ℕ) : ℕ → List ℝ → ℝ
  | _, [] => 0
  | i, xi :: rest =>
      Real.sin xi * Real.sin (((i : ℝ) + 1) * xi ^ 2 / Real.pi) ^ (2 * m)
        + michSum m (i + 1) rest

/-- The Michalewicz objective: minus the accumulated total. -/
noncomputable def michalewicz (m : ℕ) (x : List ℝ) : ℝ := -(michSum m 0 x)

/-! ### Basic facts about the vector operations and the particle updates -/

variable {α : Type} [LinearOrderedField α]

@[simp] lemma length_vadd (a b : List α) : (vadd a b).length = min a.length b.length := by
  simp [vadd]

@[simp] lemma length_vsub (a b : List α) : (vsub a b).length = min a.length b.length := by
  simp [vsub]

@[simp] lemma length_vmul (a b : List α) : (vmul a b).length = min a.length b.length := by
  simp [vmul]

@[simp] lemma length_smul (c : α) (a : List α) : (smul c a).length = a.length := by
  simp [smul]

@[simp] lemma length_sampleUniform (lo hi : α) (us : List α) :
    (sampleUniform lo hi us).length = us.length := by
  simp [sampleUniform]

lemma getD_zipWith (f : α → α → α) (a : List α) :
    ∀ (b : List α) (i : ℕ), i < a.length → i < b.length →
      (List.zipWith f a b).getD i 0 = f (a.getD i 0) (b.getD i 0) := by
  induction a with
  | nil => intro b i ha _; simp at ha
  | cons x xs ih =>
      intro b i ha hb
      cases b with
      | nil => simp at hb
      | cons y ys =>
          cases i with
          | zero => rfl
          | succ n =>
              simp only [List.zipWith_cons_cons, List.getD_cons_succ]
              exact ih ys n (by simpa using Nat.lt_of_succ_lt_succ ha)
                (by simpa using Nat.lt_of_succ_lt_succ hb)

lemma getD_map (f : α → α) (l : List α) :
    ∀ i : ℕ, i < l.length → (l.map f).getD i 0 = f (l.getD i 0) := by
  induction l with
  | nil => intro i hi; simp at hi
  | cons x xs ih =>
      intro i hi
      cases i with
      | zero => rfl
      | succ n =>
          simp only [List.map_cons, List.getD_cons_succ]
          exact ih n (by simpa using Nat.lt_of_succ_lt_succ hi)

@[simp] lemma update_velocity_position (w c1 c2 : α) (g r1 r2 : List α) (p : Particle α) :
    (p.update_velocity w c1 c2 g r1 r2).position = p.position := rfl

@[simp] lemma update_velocity_best_position (w c1 c2 : α) (g r1 r2 : List α) (p : Particle α) :
    (p.update_velocity w c1 c2 g r1 r2).best_position = p.best_position := rfl

@[simp] lemma update_velocity_best_value (w c1 c2 : α) (g r1 r2 : List α) (p : Particle α) :
    (p.update_velocity w c1 c2 g r1 r2).best_value = p.best_value := rfl

lemma update_velocity_velocity (w c1 c2 : α) (g r1 r2 : List α) (p : Particle α) :
    (p.update_velocity w c1 c2 g r1 r2).velocity =
      vadd (vadd (smul w p.velocity) (vmul (smul c1 r1) (vsub p.best_position p.position)))
        (vmul (smul c2 r2) (vsub g p.position)) := rfl

@[simp] lemma update_position_position (f : List α → α) (lo hi : α) (p : Particle α) :
    (p.update_position f lo hi).position = (vadd p.position p.velocity).map (clip lo hi) := by
  unfold Particle.update_position
  dsimp only
  split <;> rfl

@[simp] lemma update_position_velocity (f : List α → α) (lo hi : α) (p : Particle α) :
    (p.update_position f lo hi).velocity = p.velocity := by
  unfold Particle.update_position
  dsimp only
  split <;> rfl

lemma update_position_of_lt (f : List α → α) (lo hi : α) (p : Particle α)
    (h : f ((vadd p.position p.velocity).map (clip lo hi)) < p.best_value) :
    (p.update_position f lo hi).best_value = f ((vadd p.position p.velocity).map (clip lo hi)) ∧
      (p.update_position f lo hi).best_position = (vadd p.position p.velocity).map (clip lo hi) := by
  unfold Particle.update_position
  dsimp only
  rw [if_pos h]
  exact ⟨rfl, rfl⟩

lemma update_position_of_not_lt (f : List α → α) (lo hi : α) (p : Particle α)
    (h : ¬ f ((vadd p.position p.velocity).map (clip lo hi)) < p.best_value) :
    (p.update_position f lo hi).best_value = p.best_value ∧
      (p.update_position f lo hi).best_position = p.best_position := by
  unfold Particle.update_position
  dsimp only
  rw [if_neg h]
  exact ⟨rfl, rfl⟩

lemma update_position_best_le (f : List α → α) (lo hi : α) (p : Particle α) :
    (p.update_position f lo hi).best_value ≤ p.best_value := by
  unfold Particle.update_position
  dsimp only
  split
  case isTrue h => exact le_of_lt h
  case isFalse h => exact le_refl _

lemma update_position_best_consistent (f : List α → α) (lo hi : α) (p : Particle α)
    (h : p.best_value = f p.best_position) :
    (p.update_position f lo hi).best_value = f ((p.update_position f lo hi).best_position) := by
  unfold Particle.update_position
  dsimp only
  split
  case isTrue _ => rfl
  case isFalse _ => exact h

lemma clip_of_mem (lo hi x : α) (h0 : lo ≤ x) (h1 : x ≤ hi) :
    clip lo hi x = x := by
  unfold clip
  rw [max_eq_left h0, min_eq_left h1]

lemma clip_mem_lower (lo hi x : α) (hlh : lo ≤ hi) : lo ≤ clip lo hi x := by
  unfold clip
  exact le_min (le_max_right _ _) hlh

lemma clip_mem_upper (lo hi x : α) : clip lo hi x ≤ hi := min_le_right _ _

/-! ### Claim theorems: the particle-level contracts -/

/-- Claim C2 — `update_velocity` computes, per dimension `i`,
`velocity[i] = w*velocity[i] + c1*r1[i]*(best_position[i]-position[i])
 + c2*r2[i]*(global_best_position[i]-position[i])`, applies no
velocity-magnitude clamp (the formula is the entire effect), and leaves
`position`, `best_position` and `best_value` unchanged. -/
theorem velocity_update_formula (w c1 c2 : α) (g r1 r2 : List α) (p : Particle α) (D : ℕ)
    (hv : p.velocity.length = D) (hp : p.position.length = D)
    (hb : p.best_position.length = D) (hg : g.length = D)
    (h1 : r1.length = D) (h2 : r2.length = D) :
    (p.update_velocity w c1 c2 g r1 r2).position = p.position ∧
    (p.update_velocity w c1 c2 g r1 r2).best_position = p.best_position ∧
    (p.update_velocity w c1 c2 g r1 r2).best_value = p.best_value ∧
    (p.update_velocity w c1 c2 g r1 r2).velocity.length = D ∧
    ∀ i : ℕ, i < D →
      (p.update_velocity w c1 c2 g r1 r2).velocity.getD i 0 =
        w * p.velocity.getD i 0
          + c1 * r1.getD i 0 * (p.best_position.getD i 0 - p.position.getD i 0)
          + c2 * r2.getD i 0 * (g.getD i 0 - p.position.getD i 0) := by
  refine ⟨rfl, rfl, rfl, ?_, ?_⟩
  · rw [update_velocity_velocity]
    simp [hv, hp, hb, hg, h1, h2]
  · intro i hi
    rw [update_velocity_velocity]
    unfold vadd vmul vsub smul
    rw [getD_zipWith, getD_zipWith, getD_zipWith, getD_zipWith, getD_zipWith, getD_zipWith,
      getD_map, getD_map, getD_map]
    all_goals simp only [List.length_zipWith, List.length_map, hv, hp, hb, hg, h1, h2]
    all_goals omega

/-- Witness for C2 at a concrete rational particle (one dimension). -/
theorem velocity_update_formula_witness :
    (Particle.update_velocity (1/2 : ℚ) 2 3 [7] [1/2] [1/3]
        ⟨[2], [3], [5], 9⟩).position = [2] ∧
    (Particle.update_velocity (1/2 : ℚ) 2 3 [7] [1/2] [1/3]
        ⟨[2], [3], [5], 9⟩).best_position = [5] ∧
    (Particle.update_velocity (1/2 : ℚ) 2 3 [7] [1/2] [1/3]
        ⟨[2], [3], [5], 9⟩).best_value = 9 ∧
    (Particle.update_velocity (1/2 : ℚ) 2 3 [7] [1/2] [1/3]
        ⟨[2], [3], [5], 9⟩).velocity.length = 1 ∧
    ∀ i : ℕ, i < 1 →
      (Particle.update_velocity (1/2 : ℚ) 2 3 [7] [1/2] [1/3]
          ⟨[2], [3], [5], 9⟩).velocity.getD i 0 =
        (1/2) * ([3] : List ℚ).getD i 0
          + 2 * ([1/2] : List ℚ).getD i 0 * (([5] : List ℚ).getD i 0 - ([2] : List ℚ).getD i 0)
          + 3 * ([1/3] : List ℚ).getD i 0 * (([7] : List ℚ).getD i 0 - ([2] : List ℚ).getD i 0) :=
  velocity_update_formula (1/2 : ℚ) 2 3 [7] [1/2] [1/3] ⟨[2], [3], [5], 9⟩ 1
    rfl rfl rfl rfl rfl rfl

/-- Claim C3 — `update_position` adds the velocity to the position
componentwise, clips every coordinate into `[lo, hi]` (out-of-range
coordinates are truncated to the nearest boundary, in-range ones are left
alone), leaves the velocity unchanged, evaluates the objective at the
clipped position and overwrites the personal best exactly on strict
improvement (ties leave the record unchanged). -/
theorem position_update_clamp_and_best (f : List α → α) (lo hi : α) (p : Particle α) :
    (p.update_position f lo hi).position = (vadd p.position p.velocity).map (clip lo hi) ∧
    (p.update_position f lo hi).velocity = p.velocity ∧
    (f ((vadd p.position p.velocity).map (clip lo hi)) < p.best_value →
      (p.update_position f lo hi).best_value =
          f ((vadd p.position p.velocity).map (clip lo hi)) ∧
        (p.update_position f lo hi).best_position =
          (vadd p.position p.velocity).map (clip lo hi)) ∧
    (¬ f ((vadd p.position p.velocity).map (clip lo hi)) < p.best_value →
      (p.update_position f lo hi).best_value = p.best_value ∧
        (p.update_position f lo hi).best_position = p.best_position) ∧
    (lo ≤ hi → ∀ x : α,
      (x < lo → clip lo hi x = lo) ∧ (hi < x → clip lo hi x = hi) ∧
        (lo ≤ x → x ≤ hi → clip lo hi x = x)) := by
  refine ⟨update_position_position f lo hi p, update_position_velocity f lo hi p,
    update_position_of_lt f lo hi p, update_position_of_not_lt f lo hi p, ?_⟩
  intro hlh x
  refine ⟨?_, ?_, clip_of_mem lo hi x⟩
  · intro hx
    unfold clip
    rw [max_eq_right (le_of_lt hx), min_eq_left hlh]
  · intro hx
    unfold clip
    rw [max_eq_left (le_trans hlh (le_of_lt hx)), min_eq_right (le_of_lt hx)]

/-- Witness for C3: an improving rational update (5 moves the particle out of
range, the position is truncated to the upper bound 2, the personal best is
overwritten), plus the boundary behaviour of `clip` at concrete points. -/
theorem position_update_clamp_and_best_witness :
    (Particle.update_position (fun l : List ℚ => l.sum) 0 2 ⟨[0], [5], [0], 3⟩).best_value =
        (fun l : List ℚ => l.sum) ((vadd [0] [5]).map (clip 0 2)) ∧
    clip (0 : ℚ) 2 5 = 2 ∧ clip (0 : ℚ) 2 (-1) = 0 ∧ clip (0 : ℚ) 2 1 = 1 := by
  refine ⟨?_, ?_, ?_, ?_⟩
  · exact ((position_update_clamp_and_best (fun l : List ℚ => l.sum) 0 2
      ⟨[0], [5], [0], 3⟩).2.2.1 (by norm_num [vadd, clip, max_def, min_def])).1
  · exact (((position_update_clamp_and_best (fun l : List ℚ => l.sum) 0 2
      ⟨[0], [5], [0], 3⟩).2.2.2.2 (by norm_num)) 5).2.1 (by norm_num)
  · exact (((position_update_clamp_and_best (fun l : List ℚ => l.sum) 0 2
      ⟨[0], [5], [0], 3⟩).2.2.2.2 (by norm_num)) (-1)).1 (by norm_num)
  · exact (((position_update_clamp_and_best (fun l : List ℚ => l.sum) 0 2
      ⟨[0], [5], [0], 3⟩).2.2.2.2 (by norm_num)) 1).2.2 (by norm_num) (by norm_num)

lemma applyOp_best_consistent (f : List α → α) (lo hi w c1 c2 : α) (p : Particle α)
    (op : ParticleOp α) (h : p.best_value = f p.best_position) :
    (applyOp f lo hi w c1 c2 p op).best_value =
      f ((applyOp f lo hi w c1 c2 p op).best_position) := by
  cases op with
  | velUpd g r1 r2 => exact h
  | posUpd => exact update_position_best_consistent f lo hi p h

lemma applyOps_best_consistent (f : List α → α) (lo hi w c1 c2 : α) :
    ∀ (ops : List (ParticleOp α)) (p : Particle α),
      p.best_value = f p.best_position →
      (applyOps f lo hi w c1 c2 p ops).best_value =
        f ((applyOps f lo hi w c1 c2 p ops).best_position) := by
  intro ops
  induction ops with
  | nil => intro p h; exact h
  | cons op ops ih =>
      intro p h
      exact ih (applyOp f lo hi w c1 c2 p op) (applyOp_best_consistent f lo hi w c1 c2 p op h)

lemma applyOp_best_le (f : List α → α) (lo hi w c1 c2 : α) (p : Particle α)
    (op : ParticleOp α) :
    (applyOp f lo hi w c1 c2 p op).best_value ≤ p.best_value := by
  cases op with
  | velUpd g r1 r2 => exact le_refl _
  | posUpd => exact update_position_best_le f lo hi p

/-- Claim C4 — after initialization and any sequence of
`update_velocity` / `update_position` calls, the particle satisfies
`best_value = f best_position`, and one more call never increases
`best_value` (so `best_value` is non-increasing over the lifetime). -/
theorem particle_invariant (f : List α → α) (lo hi w c1 c2 : α) (us : List α)
    (ops : List (ParticleOp α)) (op : ParticleOp α) :
    (applyOps f lo hi w c1 c2 (Particle.init f lo hi us) ops).best_value =
      f ((applyOps f lo hi w c1 c2 (Particle.init f lo hi us) ops).best_position) ∧
    (applyOps f lo hi w c1 c2 (Particle.init f lo hi us) (ops ++ [op])).best_value ≤
      (applyOps f lo hi w c1 c2 (Particle.init f lo hi us) ops).best_value := by
  constructor
  · exact applyOps_best_consistent f lo hi w c1 c2 ops (Particle.init f lo hi us) rfl
  · unfold applyOps
    rw [List.foldl_append]
    exact applyOp_best_le f lo hi w c1 c2 _ op

/-! ### Initialization and the global-best reduction -/

@[simp] lemma init_position (f : List α → α) (lo hi : α) (us : List α) :
    (Particle.init f lo hi us).position = sampleUniform lo hi us := rfl

@[simp] lemma init_velocity (f : List α → α) (lo hi : α) (us : List α) :
    (Particle.init f lo hi us).velocity = List.replicate us.length 0 := rfl

@[simp] lemma init_best_position (f : List α → α) (lo hi : α) (us : List α) :
    (Particle.init f lo hi us).best_position = sampleUniform lo hi us := rfl

@[simp] lemma init_best_value (f : List α → α) (lo hi : α) (us : List α) :
    (Particle.init f lo hi us).best_value = f (sampleUniform lo hi us) := rfl

lemma foldl_best_spec (ps : List (Particle α)) :
    ∀ p : Particle α,
      (ps.foldl (fun q r => if r.best_value < q.best_value then r else q) p = p ∨
        ps.foldl (fun q r => if r.best_value < q.best_value then r else q) p ∈ ps) ∧
      (ps.foldl (fun q r => if r.best_value < q.best_value then r else q) p).best_value ≤
        p.best_value ∧
      ∀ r ∈ ps,
        (ps.foldl (fun q r => if r.best_value < q.best_value then r else q) p).best_value ≤
          r.best_value := by
  induction ps with
  | nil => intro p; exact ⟨Or.inl rfl, le_refl _, by simp⟩
  | cons r rs ih =>
      intro p
      simp only [List.foldl_cons]
      obtain ⟨hmem, hle, hall⟩ := ih (if r.best_value < p.best_value then r else p)
      have hstep_le : (if r.best_value < p.best_value then r else p).best_value ≤ p.best_value := by
        split
        case isTrue h => exact le_of_lt h
        case isFalse h => exact le_refl _
      have hstep_r : (if r.best_value < p.best_value then r else p).best_value ≤ r.best_value := by
        split
        case isTrue h => exact le_refl _
        case isFalse h => exact le_of_not_lt h
      refine ⟨?_, le_trans hle hstep_le, ?_⟩
      · rcases hmem with h | h
        · rw [h]
          split
          case isTrue _ => exact Or.inr (List.mem_cons_self r rs)
          case isFalse _ => exact Or.inl rfl
        · exact Or.inr (List.mem_cons_of_mem r h)
      · intro x hx
        rcases List.mem_cons.mp hx with h | h
        · subst h
          exact le_trans hle hstep_r
        · exact hall x h

/-- `bestOf` returns an element of the list attaining the minimal
`best_value` (the first such element). -/
lemma bestOf_spec (l : List (Particle α)) (q : Particle α) (hq : bestOf l = some q) :
    q ∈ l ∧ ∀ r ∈ l, q.best_value ≤ r.best_value := by
  cases l with
  | nil => simp [bestOf] at hq
  | cons p ps =>
      have hq' : ps.foldl (fun q r => if r.best_value < q.best_value then r else q) p = q := by
        simpa [bestOf] using hq
      obtain ⟨hmem, hle, hall⟩ := foldl_best_spec ps p
      rw [hq'] at hmem hle hall
      constructor
      · rcases hmem with h | h
        · rw [h]; exact List.mem_cons_self p ps
        · exact List.mem_cons_of_mem p h
      · intro r hr
        rcases List.mem_cons.mp hr with h | h
        · rw [h]; exact hle
        · exact hall r h

lemma bestOf_isSome (l : List (Particle α)) (hne : l ≠ []) : ∃ q, bestOf l = some q := by
  cases l with
  | nil => exact absurd rfl hne
  | cons p ps => exact ⟨_, rfl⟩

lemma initSwarm_swarm (f : List α → α) (lo hi : α) (uss : List (List α)) :
    (initSwarm f lo hi uss).swarm = uss.map (Particle.init f lo hi) := by
  unfold initSwarm
  dsimp only
  split <;> rfl

lemma initSwarm_gbest (f : List α → α) (lo hi : α) (uss : List (List α)) (hne : uss ≠ []) :
    ∃ gp, bestOf ((initSwarm f lo hi uss).swarm) = some gp ∧
      (initSwarm f lo hi uss).gbest_val = gp.best_value ∧
      (initSwarm f lo hi uss).gbest_pos = gp.best_position := by
  have hmne : uss.map (Particle.init f lo hi) ≠ [] := by
    simpa using hne
  obtain ⟨q, hq⟩ := bestOf_isSome (uss.map (Particle.init f lo hi)) hmne
  refine ⟨q, ?_, ?_, ?_⟩
  · rw [initSwarm_swarm]
    exact hq
  · unfold initSwarm
    dsimp only
    rw [hq]
  · unfold initSwarm
    dsimp only
    rw [hq]

lemma updateGlobal_le (swarm : List (Particle α)) (g : List α × α) :
    (updateGlobal swarm g).2 ≤ g.2 := by
  unfold updateGlobal
  cases h : bestOf swarm with
  | none => exact le_refl _
  | some cb =>
      dsimp only
      split
      case isTrue hlt => exact le_of_lt hlt
      case isFalse _ => exact le_refl _

/-! ### Claim theorems: initialization and the trivial loop -/

/-- Claim C6 counterexample — with `lower = 1 > 0 = upper` (and likewise for
any invalid configuration) initialization does not fail: the source
performs no validation at all, so `Particle.__init__` returns a normally
constructed particle (here with the single sampled coordinate
`1 + 1/2 * (0 - 1) = 1/2`) instead of raising a `ConfigurationError`. -/
theorem init_no_validation_counterexample :
    Particle.init (fun l : List ℚ => l.sum) 1 0 [1/2] =
      { position := [1/2], velocity := [0], best_position := [1/2], best_value := 1/2 } := by
  have hpos : sampleUniform (1 : ℚ) 0 [1/2] = [1/2] := by
    norm_num [sampleUniform]
  unfold Particle.init
  rw [hpos]
  norm_num

/-- Claim C6 amended — the code never validates the configuration, so no
failure occurs; for a valid configuration (`lo ≤ hi`, unit draws in
`[0,1]`) every sampled coordinate lies in `[lo, hi]`, the velocity is the
zero vector, and the personal best is the sampled position together with
its objective value. -/
theorem init_fields_and_range (f : List α → α) (lo hi : α) (us : List α)
    (hlh : lo ≤ hi) (hus : ∀ u ∈ us, 0 ≤ u ∧ u ≤ 1) :
    (∀ x ∈ (Particle.init f lo hi us).position, lo ≤ x ∧ x ≤ hi) ∧
    (Particle.init f lo hi us).velocity = List.replicate us.length 0 ∧
    (Particle.init f lo hi us).best_position = (Particle.init f lo hi us).position ∧
    (Particle.init f lo hi us).best_value = f ((Particle.init f lo hi us).position) := by
  refine ⟨?_, rfl, rfl, rfl⟩
  intro x hx
  rw [init_position] at hx
  unfold sampleUniform at hx
  obtain ⟨u, hu, rfl⟩ := List.mem_map.mp hx
  obtain ⟨h0, h1⟩ := hus u hu
  constructor
  · have h2 : 0 ≤ u * (hi - lo) := mul_nonneg h0 (by linarith)
    linarith
  · have h2 : u * (hi - lo) ≤ 1 * (hi - lo) :=
      mul_le_mul_of_nonneg_right h1 (by linarith)
    linarith

/-- Witness for the amended C6 at a concrete rational configuration. -/
theorem init_fields_and_range_witness :
    (∀ x ∈ (Particle.init (fun l : List ℚ => l.sum) 0 1 [1/2]).position,
        (0 : ℚ) ≤ x ∧ x ≤ 1) ∧
    (Particle.init (fun l : List ℚ => l.sum) 0 1 [1/2]).velocity =
        List.replicate ([(1 : ℚ)/2] : List ℚ).length 0 ∧
    (Particle.init (fun l : List ℚ => l.sum) 0 1 [1/2]).best_position =
        (Particle.init (fun l : List ℚ => l.sum) 0 1 [1/2]).position ∧
    (Particle.init (fun l : List ℚ => l.sum) 0 1 [1/2]).best_value =
        (fun l : List ℚ => l.sum)
          ((Particle.init (fun l : List ℚ => l.sum) 0 1 [1/2]).position) :=
  init_fields_and_range (fun l : List ℚ => l.sum) 0 1 [1/2] (by norm_num)
    (by intro u hu; simp only [List.mem_singleton] at hu; subst hu; norm_num)

/-- Claim C8 — with an iteration budget of `0` the loop performs no swarm
step, terminates immediately with the found-flag `false` (the EXHAUSTED
terminal state) and the untouched initial swarm state, whose global best
is the minimum of the initial personal bests. -/
theorem zero_iteration_budget (f : List α → α) (lo hi w c1 c2 gmin tol : α)
    (rnd : ℕ → List (List α × List α)) (uss : List (List α)) (hne : uss ≠ []) :
    psoLoop f lo hi w c1 c2 gmin tol rnd 0 (initSwarm f lo hi uss) =
      (initSwarm f lo hi uss, false) ∧
    (∀ p ∈ (initSwarm f lo hi uss).swarm,
      (initSwarm f lo hi uss).gbest_val ≤ p.best_value) ∧
    ∃ p ∈ (initSwarm f lo hi uss).swarm,
      p.best_value = (initSwarm f lo hi uss).gbest_val := by
  obtain ⟨gp, hgp, hval, _⟩ := initSwarm_gbest f lo hi uss hne
  obtain ⟨hmem, hall⟩ := bestOf_spec _ gp hgp
  refine ⟨rfl, ?_, gp, hmem, hval.symm⟩
  intro p hp
  rw [hval]
  exact hall p hp

/-- Witness for C8 at a concrete one-particle rational swarm. -/
theorem zero_iteration_budget_witness :
    psoLoop (fun l : List ℚ => l.sum) 0 1 0 0 0 0 0 (fun _ => []) 0
        (initSwarm (fun l : List ℚ => l.sum) 0 1 [[0]]) =
      (initSwarm (fun l : List ℚ => l.sum) 0 1 [[0]], false) ∧
    (∀ p ∈ (initSwarm (fun l : List ℚ => l.sum) 0 1 [[0]]).swarm,
      (initSwarm (fun l : List ℚ => l.sum) 0 1 [[0]]).gbest_val ≤ p.best_value) ∧
    ∃ p ∈ (initSwarm (fun l : List ℚ => l.sum) 0 1 [[0]]).swarm,
      p.best_value = (initSwarm (fun l : List ℚ => l.sum) 0 1 [[0]]).gbest_val :=
  zero_iteration_budget (fun l : List ℚ => l.sum) 0 1 0 0 0 0 0 (fun _ => []) [[0]]
    (by simp)

/-! ### The per-iteration swarm step and the global-best invariant -/

lemma stepOne_best_le (f : List α → α) (lo hi w c1 c2 : α) (g : List α)
    (p : Particle α) (r : List α × List α) :
    (stepOne f lo hi w c1 c2 g p r).best_value ≤ p.best_value := by
  unfold stepOne
  calc (Particle.update_position f lo hi
          (Particle.update_velocity w c1 c2 g r.1 r.2 p)).best_value
      ≤ (Particle.update_velocity w c1 c2 g r.1 r.2 p).best_value :=
        update_position_best_le f lo hi _
    _ = p.best_value := rfl

@[simp] lemma length_stepParticles (f : List α → α) (lo hi w c1 c2 : α) (g : List α)
    (swarm : List (Particle α)) (rs : List (List α × List α)) :
    (stepParticles f lo hi w c1 c2 g swarm rs).length = min swarm.length rs.length := by
  simp [stepParticles]

lemma psoIter_swarm (f : List α → α) (lo hi w c1 c2 : α) (rs : List (List α × List α))
    (st : SwarmState α) :
    (psoIter f lo hi w c1 c2 rs st).swarm =
      stepParticles f lo hi w c1 c2 st.gbest_pos st.swarm rs := rfl

lemma psoIter_gbest_val (f : List α → α) (lo hi w c1 c2 : α) (rs : List (List α × List α))
    (st : SwarmState α) :
    (psoIter f lo hi w c1 c2 rs st).gbest_val =
      (updateGlobal (stepParticles f lo hi w c1 c2 st.gbest_pos st.swarm rs)
        (st.gbest_pos, st.gbest_val)).2 := rfl

lemma psoIter_gbest_pos (f : List α → α) (lo hi w c1 c2 : α) (rs : List (List α × List α))
    (st : SwarmState α) :
    (psoIter f lo hi w c1 c2 rs st).gbest_pos =
      (updateGlobal (stepParticles f lo hi w c1 c2 st.gbest_pos st.swarm rs)
        (st.gbest_pos, st.gbest_val)).1 := rfl

/-- The global best value never increases over one iteration, with no
hypotheses at all: the source only overwrites it on strict improvement. -/
lemma psoIter_gbest_le (f : List α → α) (lo hi w c1 c2 : α) (rs : List (List α × List α))
    (st : SwarmState α) :
    (psoIter f lo hi w c1 c2 rs st).gbest_val ≤ st.gbest_val := by
  rw [psoIter_gbest_val]
  exact updateGlobal_le _ _

@[simp] lemma psoIterN_zero (f : List α → α) (lo hi w c1 c2 : α)
    (rnd : ℕ → List (List α × List α)) (st : SwarmState α) :
    psoIterN f lo hi w c1 c2 rnd 0 st = st := rfl

lemma psoIterN_succ (f : List α → α) (lo hi w c1 c2 : α)
    (rnd : ℕ → List (List α × List α)) (n : ℕ) (st : SwarmState α) :
    psoIterN f lo hi w c1 c2 rnd (n + 1) st =
      psoIter f lo hi w c1 c2 (rnd n) (psoIterN f lo hi w c1 c2 rnd n st) := by
  induction n generalizing rnd st with
  | zero => rfl
  | succ n ih =>
      have h : psoIterN f lo hi w c1 c2 rnd (n + 1 + 1) st =
          psoIterN f lo hi w c1 c2 (fun k => rnd (k + 1)) (n + 1)
            (psoIter f lo hi w c1 c2 (rnd 0) st) := rfl
      rw [h, ih]
      rfl

/-- One iteration preserves the synchronization invariant: the swarm keeps
its size, and afterwards the global best value is again a lower bound of
the personal bests and is attained by some particle. -/
lemma psoIter_sync (f : List α → α) (lo hi w c1 c2 : α) (rs : List (List α × List α))
    (st : SwarmState α) (hlen : st.swarm.length ≤ rs.length) (hne : st.swarm ≠ [])
    (hat : ∃ p ∈ st.swarm, p.best_value = st.gbest_val) :
    (psoIter f lo hi w c1 c2 rs st).swarm.length = st.swarm.length ∧
    (∀ p ∈ (psoIter f lo hi w c1 c2 rs st).swarm,
      (psoIter f lo hi w c1 c2 rs st).gbest_val ≤ p.best_value) ∧
    ∃ p ∈ (psoIter f lo hi w c1 c2 rs st).swarm,
      p.best_value = (psoIter f lo hi w c1 c2 rs st).gbest_val := by
  have hlen' : (stepParticles f lo hi w c1 c2 st.gbest_pos st.swarm rs).length =
      st.swarm.length := by
    simp [min_eq_left hlen]
  have hne' : stepParticles f lo hi w c1 c2 st.gbest_pos st.swarm rs ≠ [] := by
    intro h
    apply hne
    rw [← List.length_eq_zero] at h ⊢
    omega
  obtain ⟨cb, hcb⟩ := bestOf_isSome _ hne'
  obtain ⟨hcb_mem, hcb_min⟩ := bestOf_spec _ cb hcb
  -- the particle attaining the old global best only improves, so the new
  -- minimum is at most the old global best
  obtain ⟨q, hq_mem, hq_val⟩ := hat
  obtain ⟨j, hj, hq_eq⟩ := List.getElem_of_mem hq_mem
  have hj2 : j < rs.length := lt_of_lt_of_le hj hlen
  have hj3 : j < (stepParticles f lo hi w c1 c2 st.gbest_pos st.swarm rs).length := by
    omega
  have hstep_j : (stepParticles f lo hi w c1 c2 st.gbest_pos st.swarm rs)[j] =
      stepOne f lo hi w c1 c2 st.gbest_pos st.swarm[j] rs[j] :=
    List.getElem_zipWith
  have hcb_le : cb.best_value ≤ st.gbest_val := by
    have h1 : cb.best_value ≤
        (stepParticles f lo hi w c1 c2 st.gbest_pos st.swarm rs)[j].best_value :=
      hcb_min _ (List.getElem_mem hj3)
    rw [hstep_j] at h1
    have h2 : (stepOne f lo hi w c1 c2 st.gbest_pos st.swarm[j] rs[j]).best_value ≤
        st.swarm[j].best_value := stepOne_best_le f lo hi w c1 c2 _ _ _
    have h3 : st.swarm[j].best_value = st.gbest_val := by
      rw [hq_eq]
      exact hq_val
    rw [h3] at h2
    exact le_trans h1 h2
  have hval : (psoIter f lo hi w c1 c2 rs st).gbest_val = cb.best_value := by
    rw [psoIter_gbest_val]
    unfold updateGlobal
    rw [hcb]
    dsimp only
    split
    case isTrue _ => rfl
    case isFalse h => exact (le_antisymm hcb_le (le_of_not_lt h)).symm
  refine ⟨hlen', ?_, cb, ?_, ?_⟩
  · intro p hp
    rw [psoIter_swarm] at hp
    rw [hval]
    exact hcb_min p hp
  · rw [psoIter_swarm]
    exact hcb_mem
  · rw [hval]

/-- The synchronization invariant holds after every number of iterations of
a run started from an initialized swarm. -/
lemma run_sync_inv (f : List α → α) (lo hi w c1 c2 : α)
    (rnd : ℕ → List (List α × List α)) (uss : List (List α)) (hne : uss ≠ [])
    (hdraw : ∀ k, uss.length ≤ (rnd k).length) : ∀ n : ℕ,
    (psoIterN f lo hi w c1 c2 rnd n (initSwarm f lo hi uss)).swarm.length = uss.length ∧
    (∀ p ∈ (psoIterN f lo hi w c1 c2 rnd n (initSwarm f lo hi uss)).swarm,
      (psoIterN f lo hi w c1 c2 rnd n (initSwarm f lo hi uss)).gbest_val ≤ p.best_value) ∧
    ∃ p ∈ (psoIterN f lo hi w c1 c2 rnd n (initSwarm f lo hi uss)).swarm,
      p.best_value = (psoIterN f lo hi w c1 c2 rnd n (initSwarm f lo hi uss)).gbest_val := by
  intro n
  induction n with
  | zero =>
      obtain ⟨gp, hgp, hval, _⟩ := initSwarm_gbest f lo hi uss hne
      obtain ⟨hmem, hall⟩ := bestOf_spec _ gp hgp
      simp only [psoIterN_zero]
      refine ⟨by rw [initSwarm_swarm]; simp, ?_, gp, hmem, hval.symm⟩
      intro p hp
      rw [hval]
      exact hall p hp
  | succ n ih =>
      obtain ⟨ihlen, ihub, ihat⟩ := ih
      have hne' : (psoIterN f lo hi w c1 c2 rnd n (initSwarm f lo hi uss)).swarm ≠ [] := by
        intro h
        apply hne
        rw [← List.length_eq_zero] at h ⊢
        omega
      have hstep := psoIter_sync f lo hi w c1 c2 (rnd n)
        (psoIterN f lo hi w c1 c2 rnd n (initSwarm f lo hi uss))
        (by rw [ihlen]; exact hdraw n) hne' ihat
      rw [psoIterN_succ]
      exact ⟨by rw [hstep.1, ihlen], hstep.2.1, hstep.2.2⟩

/-- Claim C1 — the swarm's global best is elitist: across a run started from
an initialized swarm, `global_best_value` never increases from one iteration
to the next; at every iteration boundary it is a lower bound of all personal
bests, and it is attained by some particle (i.e. it equals the minimum of
the personal bests immediately after each global-best recomputation). -/
theorem global_best_elitist (f : List α → α) (lo hi w c1 c2 : α)
    (rnd : ℕ → List (List α × List α)) (uss : List (List α)) (hne : uss ≠ [])
    (hdraw : ∀ k, uss.length ≤ (rnd k).length) (n : ℕ) :
    (psoIterN f lo hi w c1 c2 rnd (n + 1) (initSwarm f lo hi uss)).gbest_val ≤
      (psoIterN f lo hi w c1 c2 rnd n (initSwarm f lo hi uss)).gbest_val ∧
    (∀ p ∈ (psoIterN f lo hi w c1 c2 rnd n (initSwarm f lo hi uss)).swarm,
      (psoIterN f lo hi w c1 c2 rnd n (initSwarm f lo hi uss)).gbest_val ≤ p.best_value) ∧
    ∃ p ∈ (psoIterN f lo hi w c1 c2 rnd n (initSwarm f lo hi uss)).swarm,
      p.best_value = (psoIterN f lo hi w c1 c2 rnd n (initSwarm f lo hi uss)).gbest_val := by
  obtain ⟨_, hub, hat⟩ := run_sync_inv f lo hi w c1 c2 rnd uss hne hdraw n
  refine ⟨?_, hub, hat⟩
  rw [psoIterN_succ]
  exact psoIter_gbest_le f lo hi w c1 c2 (rnd n) _

/-- Witness for C1 at a concrete one-particle rational run. -/
theorem global_best_elitist_witness :
    (psoIterN (fun l : List ℚ => l.sum) 0 1 0 0 0 (fun _ => [([0], [0])]) 1
        (initSwarm (fun l : List ℚ => l.sum) 0 1 [[0]])).gbest_val ≤
      (psoIterN (fun l : List ℚ => l.sum) 0 1 0 0 0 (fun _ => [([0], [0])]) 0
        (initSwarm (fun l : List ℚ => l.sum) 0 1 [[0]])).gbest_val ∧
    (∀ p ∈ (psoIterN (fun l : List ℚ => l.sum) 0 1 0 0 0 (fun _ => [([0], [0])]) 0
        (initSwarm (fun l : List ℚ => l.sum) 0 1 [[0]])).swarm,
      (psoIterN (fun l : List ℚ => l.sum) 0 1 0 0 0 (fun _ => [([0], [0])]) 0
        (initSwarm (fun l : List ℚ => l.sum) 0 1 [[0]])).gbest_val ≤ p.best_value) ∧
    ∃ p ∈ (psoIterN (fun l : List ℚ => l.sum) 0 1 0 0 0 (fun _ => [([0], [0])]) 0
        (initSwarm (fun l : List ℚ => l.sum) 0 1 [[0]])).swarm,
      p.best_value = (psoIterN (fun l : List ℚ => l.sum) 0 1 0 0 0 (fun _ => [([0], [0])]) 0
        (initSwarm (fun l : List ℚ => l.sum) 0 1 [[0]])).gbest_val :=
  global_best_elitist (fun l : List ℚ => l.sum) 0 1 0 0 0 (fun _ => [([0], [0])]) [[0]]
    (by simp) (by intro k; simp) 0

/-! ### The zero-coefficient fixpoint -/

lemma smul_zero_eq (v : List α) : smul (0 : α) v = List.replicate v.length 0 := by
  induction v with
  | nil => rfl
  | cons x xs ih =>
      simp only [smul, List.map_cons, zero_mul, List.length_cons, List.replicate_succ,
        List.cons.injEq, true_and]
      simp only [smul, zero_mul] at ih
      exact ih

lemma vmul_replicate_zero (n : ℕ) (l : List α) :
    vmul (List.replicate n 0) l = List.replicate (min n l.length) 0 := by
  induction n generalizing l with
  | zero => simp [vmul]
  | succ m ih =>
      cases l with
      | nil => simp [vmul]
      | cons x xs =>
          simp only [vmul, List.replicate_succ, List.zipWith_cons_cons, zero_mul,
            List.length_cons, Nat.succ_min_succ, List.cons.injEq, true_and]
          simpa [vmul] using ih xs

lemma vadd_replicate_zero (m n : ℕ) :
    vadd (List.replicate m (0 : α)) (List.replicate n 0) =
      List.replicate (min m n) 0 := by
  induction m generalizing n with
  | zero => simp [vadd]
  | succ k ih =>
      cases n with
      | zero => simp [vadd]
      | succ j =>
          simp only [vadd, List.replicate_succ, List.zipWith_cons_cons, add_zero,
            Nat.succ_min_succ, List.cons.injEq, true_and]
          have h := ih j
          simp only [vadd] at h
          exact h

lemma vadd_replicate_zero_right : ∀ (l : List α) (n : ℕ), l.length ≤ n →
    vadd l (List.replicate n 0) = l := by
  intro l
  induction l with
  | nil => intro n _; rfl
  | cons x xs ih =>
      intro n hn
      cases n with
      | zero => simp at hn
      | succ m =>
          simp only [List.replicate_succ, vadd, List.zipWith_cons_cons, add_zero,
            List.cons.injEq, true_and]
          simpa [vadd] using ih m (by simpa using hn)

lemma map_clip_of_range (lo hi : α) (l : List α) (h : ∀ x ∈ l, lo ≤ x ∧ x ≤ hi) :
    l.map (clip lo hi) = l := by
  conv_rhs => rw [← List.map_id l]
  apply List.map_congr_left
  intro x hx
  exact clip_of_mem lo hi x (h x hx).1 (h x hx).2

/-- With all three coefficients zero, `update_velocity` always produces the
zero velocity vector. -/
lemma velocity_zero_coeffs (g r1 r2 : List α) (p : Particle α) (D : ℕ)
    (hv : p.velocity.length = D) (hp : p.position.length = D)
    (hb : p.best_position.length = D) (hg : g.length = D)
    (h1 : r1.length = D) (h2 : r2.length = D) :
    (p.update_velocity 0 0 0 g r1 r2).velocity = List.replicate D 0 := by
  rw [update_velocity_velocity, smul_zero_eq, smul_zero_eq, smul_zero_eq,
    vmul_replicate_zero, vmul_replicate_zero, vadd_replicate_zero, vadd_replicate_zero]
  simp [hv, hp, hb, hg, h1, h2]

/-- With zero coefficients, an already-resting particle (zero velocity,
in-range position, best record consistent with its position) is a fixed
point of the full per-iteration update. -/
lemma stepOne_fix (f : List α → α) (lo hi : α) (g : List α) (p : Particle α)
    (r : List α × List α) (D : ℕ)
    (hv : p.velocity = List.replicate D 0)
    (hp : p.position.length = D) (hb : p.best_position.length = D)
    (hg : g.length = D) (h1 : r.1.length = D) (h2 : r.2.length = D)
    (hrange : ∀ x ∈ p.position, lo ≤ x ∧ x ≤ hi)
    (hbest : p.best_value = f p.position) :
    stepOne f lo hi 0 0 0 g p r = p := by
  have hvlen : p.velocity.length = D := by rw [hv]; simp
  have hvel : (p.update_velocity 0 0 0 g r.1 r.2).velocity = List.replicate D 0 :=
    velocity_zero_coeffs g r.1 r.2 p D hvlen hp hb hg h1 h2
  have hq : p.update_velocity 0 0 0 g r.1 r.2 = p := by
    have hlit : p.update_velocity 0 0 0 g r.1 r.2 =
        { p with velocity := (p.update_velocity 0 0 0 g r.1 r.2).velocity } := rfl
    rw [hlit, hvel, ← hv]
  have hposfix : (vadd p.position p.velocity).map (clip lo hi) = p.position := by
    rw [hv, vadd_replicate_zero_right p.position D (le_of_eq hp),
      map_clip_of_range lo hi p.position hrange]
  have hpfix : p.update_position f lo hi = p := by
    unfold Particle.update_position
    dsimp only
    rw [hposfix, ← hbest, if_neg (lt_irrefl p.best_value)]
  show (p.update_velocity 0 0 0 g r.1 r.2).update_position f lo hi = p
  rw [hq, hpfix]

lemma stepParticles_fix (f : List α → α) (lo hi : α) (g : List α)
    (sw : List (Particle α)) :
    ∀ rs : List (List α × List α), sw.length ≤ rs.length →
      (∀ p ∈ sw, ∀ r ∈ rs, stepOne f lo hi 0 0 0 g p r = p) →
      stepParticles f lo hi 0 0 0 g sw rs = sw := by
  induction sw with
  | nil => intro rs _ _; rfl
  | cons p ps ih =>
      intro rs hlen hfix
      cases rs with
      | nil => simp at hlen
      | cons r rest =>
          simp only [stepParticles, List.zipWith_cons_cons]
          rw [hfix p (List.mem_cons_self p ps) r (List.mem_cons_self r rest)]
          have h := ih rest (by simpa using hlen)
            (fun q hq s hs => hfix q (List.mem_cons_of_mem p hq) s (List.mem_cons_of_mem r hs))
          simp only [stepParticles] at h
          rw [h]

lemma psoIter_fix (f : List α → α) (lo hi : α) (rs : List (List α × List α))
    (st : SwarmState α) (hne : st.swarm ≠ [])
    (hfix : stepParticles f lo hi 0 0 0 st.gbest_pos st.swarm rs = st.swarm)
    (hub : ∀ p ∈ st.swarm, st.gbest_val ≤ p.best_value) :
    psoIter f lo hi 0 0 0 rs st = st := by
  obtain ⟨cb, hcb⟩ := bestOf_isSome st.swarm hne
  have hcb_mem : cb ∈ st.swarm := (bestOf_spec st.swarm cb hcb).1
  unfold psoIter
  dsimp only
  rw [hfix]
  unfold updateGlobal
  rw [hcb]
  dsimp only
  rw [if_neg (not_lt.mpr (hub cb hcb_mem))]

/-- Claim C9 — with `inertia_weight = cognitive_const = social_const = 0`, an
initialized swarm is entirely static: the whole swarm state (all velocities —
which are the zero vector —, all positions, all personal bests, and the global
best) is unchanged by every iteration. -/
theorem zero_coefficients_static (f : List α → α) (lo hi : α) (D : ℕ)
    (rnd : ℕ → List (List α × List α)) (uss : List (List α))
    (hne : uss ≠ []) (hlh : lo ≤ hi)
    (huss : ∀ us ∈ uss, us.length = D ∧ ∀ u ∈ us, 0 ≤ u ∧ u ≤ 1)
    (hdraw : ∀ k, uss.length ≤ (rnd k).length ∧
      ∀ r ∈ rnd k, r.1.length = D ∧ r.2.length = D) (n : ℕ) :
    psoIterN f lo hi 0 0 0 rnd n (initSwarm f lo hi uss) = initSwarm f lo hi uss ∧
    (∀ p ∈ (psoIterN f lo hi 0 0 0 rnd n (initSwarm f lo hi uss)).swarm,
      p.velocity = List.replicate D 0) ∧
    (psoIterN f lo hi 0 0 0 rnd n (initSwarm f lo hi uss)).gbest_val =
      (initSwarm f lo hi uss).gbest_val := by
  have hswarm : (initSwarm f lo hi uss).swarm = uss.map (Particle.init f lo hi) :=
    initSwarm_swarm f lo hi uss
  have hvel0 : ∀ p ∈ (initSwarm f lo hi uss).swarm, p.velocity = List.replicate D 0 := by
    intro p hp
    rw [hswarm] at hp
    obtain ⟨us, hus, rfl⟩ := List.mem_map.mp hp
    rw [init_velocity, (huss us hus).1]
  have hfixed : psoIterN f lo hi 0 0 0 rnd n (initSwarm f lo hi uss) =
      initSwarm f lo hi uss := by
    induction n with
    | zero => rfl
    | succ m ihm =>
        rw [psoIterN_succ, ihm]
        have hne' : (initSwarm f lo hi uss).swarm ≠ [] := by
          rw [hswarm]
          simpa using hne
        obtain ⟨gp, hgp, hgval, hgpos⟩ := initSwarm_gbest f lo hi uss hne
        obtain ⟨hgp_mem, hgp_all⟩ := bestOf_spec _ gp hgp
        have hglen : (initSwarm f lo hi uss).gbest_pos.length = D := by
          rw [hgpos]
          rw [hswarm] at hgp_mem
          obtain ⟨us, hus, rfl⟩ := List.mem_map.mp hgp_mem
          rw [init_best_position]
          simp [(huss us hus).1]
        apply psoIter_fix f lo hi (rnd m) (initSwarm f lo hi uss) hne'
        · apply stepParticles_fix f lo hi _ _ _ (by simp [hswarm]; exact (hdraw m).1)
          intro p hp r hr
          have hpv := hvel0 p hp
          rw [hswarm] at hp
          obtain ⟨us, hus, rfl⟩ := List.mem_map.mp hp
          obtain ⟨huslen, husval⟩ := huss us hus
          have hrange := (init_fields_and_range f lo hi us hlh husval).1
          exact stepOne_fix f lo hi _ _ r D hpv
            (by rw [init_position]; simp [huslen])
            (by rw [init_best_position]; simp [huslen])
            hglen ((hdraw m).2 r hr).1 ((hdraw m).2 r hr).2 hrange rfl
        · intro p hp
          rw [hgval]
          exact hgp_all p hp
  refine ⟨hfixed, ?_, by rw [hfixed]⟩
  rw [hfixed]
  exact hvel0

/-- Witness for C9 at a concrete one-particle rational run. -/
theorem zero_coefficients_static_witness :
    psoIterN (fun l : List ℚ => l.sum) 0 1 0 0 0 (fun _ => [([0], [0])]) 3
        (initSwarm (fun l : List ℚ => l.sum) 0 1 [[0]]) =
      initSwarm (fun l : List ℚ => l.sum) 0 1 [[0]] ∧
    (∀ p ∈ (psoIterN (fun l : List ℚ => l.sum) 0 1 0 0 0 (fun _ => [([0], [0])]) 3
        (initSwarm (fun l : List ℚ => l.sum) 0 1 [[0]])).swarm,
      p.velocity = List.replicate 1 0) ∧
    (psoIterN (fun l : List ℚ => l.sum) 0 1 0 0 0 (fun _ => [([0], [0])]) 3
        (initSwarm (fun l : List ℚ => l.sum) 0 1 [[0]])).gbest_val =
      (initSwarm (fun l : List ℚ => l.sum) 0 1 [[0]]).gbest_val :=
  zero_coefficients_static (fun l : List ℚ => l.sum) 0 1 1 (fun _ => [([0], [0])]) [[0]]
    (by simp) (by norm_num)
    (by intro us hus; simp only [List.mem_singleton] at hus; subst hus
        exact ⟨rfl, by intro u hu; simp only [List.mem_singleton] at hu; subst hu; norm_num⟩)
    (by intro k
        refine ⟨by simp, ?_⟩
        intro r hr
        simp only [List.mem_singleton] at hr
        subst hr
        exact ⟨rfl, rfl⟩)
    3

/-! ### Order independence of the particle loop -/

lemma bestOf_none_iff (l : List (Particle α)) : bestOf l = none ↔ l = [] := by
  cases l with
  | nil => simp [bestOf]
  | cons p ps => simp [bestOf]

/-- The minimal `best_value` seen by `bestOf` is invariant under permutation
of the swarm (even though the chosen particle need not be). -/
lemma bestOf_val_perm (sw sw' : List (Particle α)) (h : sw.Perm sw')
    (q q' : Particle α) (hq : bestOf sw = some q) (hq' : bestOf sw' = some q') :
    q.best_value = q'.best_value := by
  obtain ⟨hq_mem, hq_min⟩ := bestOf_spec sw q hq
  obtain ⟨hq'_mem, hq'_min⟩ := bestOf_spec sw' q' hq'
  exact le_antisymm (hq_min q' (h.symm.subset hq'_mem)) (hq'_min q (h.subset hq_mem))

lemma updateGlobal_val_perm (sw sw' : List (Particle α)) (h : sw.Perm sw')
    (g : List α × α) : (updateGlobal sw g).2 = (updateGlobal sw' g).2 := by
  cases hsw : bestOf sw with
  | none =>
      have hnil : sw = [] := (bestOf_none_iff sw).mp hsw
      subst hnil
      have hnil' : sw' = [] := h.nil_eq.symm
      subst hnil'
      rfl
  | some cb =>
      cases hsw' : bestOf sw' with
      | none =>
          have hnil' : sw' = [] := (bestOf_none_iff sw').mp hsw'
          subst hnil'
          have hnil : sw = [] := h.eq_nil
          rw [hnil] at hsw
          simp [bestOf] at hsw
      | some cb' =>
          have hval : cb.best_value = cb'.best_value :=
            bestOf_val_perm sw sw' h cb cb' hsw hsw'
          unfold updateGlobal
          rw [hsw, hsw']
          dsimp only
          rw [hval]
          split <;> rfl

/-- Claim C7 amended — within one step each particle's update depends only on
its own state, its own draws and the previous global-best snapshot, so
permuting the processing order permutes the post-step particle states
accordingly (each particle's own result is unchanged) and leaves the new
global best value unchanged.  (The global best position, by contrast, can
depend on the order when several particles tie for the minimal best value.) -/
theorem step_order_independence (f : List α → α) (lo hi w c1 c2 : α) (g0 : List α)
    (gv : List α × α) (l l' : List (Particle α × (List α × List α)))
    (hperm : l.Perm l') :
    (stepPairs f lo hi w c1 c2 g0 l).Perm (stepPairs f lo hi w c1 c2 g0 l') ∧
    (updateGlobal (stepPairs f lo hi w c1 c2 g0 l) gv).2 =
      (updateGlobal (stepPairs f lo hi w c1 c2 g0 l') gv).2 := by
  have hmap : (stepPairs f lo hi w c1 c2 g0 l).Perm (stepPairs f lo hi w c1 c2 g0 l') :=
    hperm.map _
  exact ⟨hmap, updateGlobal_val_perm _ _ hmap gv⟩

/-- Witness for the amended C7: swapping two concrete particles. -/
theorem step_order_independence_witness :
    (stepPairs (fun l : List ℚ => l.sum) 0 2 0 0 0 [9]
        [(⟨[0], [0], [0], 5⟩, ([0], [0])), (⟨[1], [0], [1], 5⟩, ([0], [0]))]).Perm
      (stepPairs (fun l : List ℚ => l.sum) 0 2 0 0 0 [9]
        [(⟨[1], [0], [1], 5⟩, ([0], [0])), (⟨[0], [0], [0], 5⟩, ([0], [0]))]) ∧
    (updateGlobal (stepPairs (fun l : List ℚ => l.sum) 0 2 0 0 0 [9]
        [(⟨[0], [0], [0], 5⟩, ([0], [0])), (⟨[1], [0], [1], 5⟩, ([0], [0]))]) ([9], 0)).2 =
      (updateGlobal (stepPairs (fun l : List ℚ => l.sum) 0 2 0 0 0 [9]
        [(⟨[1], [0], [1], 5⟩, ([0], [0])), (⟨[0], [0], [0], 5⟩, ([0], [0]))]) ([9], 0)).2 :=
  step_order_independence (fun l : List ℚ => l.sum) 0 2 0 0 0 [9] ([9], 0)
    [(⟨[0], [0], [0], 5⟩, ([0], [0])), (⟨[1], [0], [1], 5⟩, ([0], [0]))]
    [(⟨[1], [0], [1], 5⟩, ([0], [0])), (⟨[0], [0], [0], 5⟩, ([0], [0]))]
    (List.Perm.swap _ _ _)

/-- Claim C7 counterexample — the new global best is NOT entirely
order-independent: with two particles that tie on the new minimal best
value (both reach value `-1` here), the processing order decides which
best position is copied into `global_best_position` (Python's `min`
takes the first minimum). -/
theorem step_order_counterexample :
    (updateGlobal (stepPairs (fun _ : List ℚ => -1) 0 2 0 0 0 [9]
        [(⟨[0], [0], [0], 5⟩, ([0], [0])), (⟨[1], [0], [1], 5⟩, ([0], [0]))]) ([9], 0)).1 ≠
      (updateGlobal (stepPairs (fun _ : List ℚ => -1) 0 2 0 0 0 [9]
        [(⟨[1], [0], [1], 5⟩, ([0], [0])), (⟨[0], [0], [0], 5⟩, ([0], [0]))]) ([9], 0)).1 := by
  norm_num [stepPairs, stepOne, Particle.update_velocity, Particle.update_position,
    updateGlobal, bestOf, vadd, vsub, vmul, smul, clip, max_def, min_def]

/-! ### The diversity metric -/

lemma sum_eq_zero_iff_of_nonneg (l : List ℝ) (h : ∀ x ∈ l, 0 ≤ x) :
    l.sum = 0 ↔ ∀ x ∈ l, x = 0 := by
  induction l with
  | nil => simp
  | cons x xs ih =>
      have hx : 0 ≤ x := h x (List.mem_cons_self x xs)
      have hxs : ∀ y ∈ xs, 0 ≤ y := fun y hy => h y (List.mem_cons_of_mem x hy)
      have hsum : 0 ≤ xs.sum := List.sum_nonneg hxs
      rw [List.sum_cons, add_eq_zero_iff_of_nonneg hx hsum, ih hxs]
      simp

lemma normEuclid_nonneg (v : List ℝ) : 0 ≤ normEuclid v := Real.sqrt_nonneg _

lemma normEuclid_eq_zero_iff (v : List ℝ) : normEuclid v = 0 ↔ ∀ x ∈ v, x = 0 := by
  have hsq : ∀ y ∈ v.map (fun x => x ^ 2), 0 ≤ y := by
    intro y hy
    obtain ⟨x, _, rfl⟩ := List.mem_map.mp hy
    exact sq_nonneg x
  have hsum : 0 ≤ (v.map (fun x => x ^ 2)).sum := List.sum_nonneg hsq
  unfold normEuclid
  rw [Real.sqrt_eq_zero']
  constructor
  · intro hle x hx
    have h0 : (v.map (fun x => x ^ 2)).sum = 0 := le_antisymm hle hsum
    have := (sum_eq_zero_iff_of_nonneg _ hsq).mp h0 (x ^ 2)
      (List.mem_map.mpr ⟨x, hx, rfl⟩)
    exact sq_eq_zero_iff.mp this
  · intro hall
    apply le_of_eq
    apply (sum_eq_zero_iff_of_nonneg _ hsq).mpr
    intro y hy
    obtain ⟨x, hx, rfl⟩ := List.mem_map.mp hy
    rw [hall x hx]
    norm_num

lemma vsub_eq_zero_iff : ∀ a b : List ℝ, a.length = b.length →
    ((∀ x ∈ vsub a b, x = 0) ↔ a = b) := by
  intro a
  induction a with
  | nil =>
      intro b hb
      cases b with
      | nil => simp [vsub]
      | cons y ys => simp at hb
  | cons x xs ih =>
      intro b hb
      cases b with
      | nil => simp at hb
      | cons y ys =>
          have hlen : xs.length = ys.length := by simpa using hb
          simp only [vsub, List.zipWith_cons_cons, List.mem_cons, List.cons.injEq]
          constructor
          · intro h
            refine ⟨sub_eq_zero.mp (h (x - y) (Or.inl rfl)), ?_⟩
            apply (ih ys hlen).mp
            intro z hz
            exact h z (Or.inr (by simpa [vsub] using hz))
          · rintro ⟨rfl, rfl⟩
            intro z hz
            rcases hz with h | h
            · rw [h]; exact sub_self x
            · exact (ih xs rfl).mpr rfl z (by simpa [vsub] using h)

lemma mem_pairsOf {β : Type} : ∀ (l : List β) (pq : β × β), pq ∈ pairsOf l →
    pq.1 ∈ l ∧ pq.2 ∈ l := by
  intro l
  induction l with
  | nil => intro pq h; simp [pairsOf] at h
  | cons x xs ih =>
      intro pq h
      simp only [pairsOf, List.mem_append, List.mem_map] at h
      rcases h with ⟨y, hy, rfl⟩ | h
      · exact ⟨List.mem_cons_self x xs, List.mem_cons_of_mem x hy⟩
      · obtain ⟨h1, h2⟩ := ih pq h
        exact ⟨List.mem_cons_of_mem x h1, List.mem_cons_of_mem x h2⟩

lemma pairsOf_eq_iff {β : Type} : ∀ l : List β,
    (∀ pq ∈ pairsOf l, pq.1 = pq.2) ↔ ∀ p ∈ l, ∀ q ∈ l, p = q := by
  intro l
  induction l with
  | nil => simp [pairsOf]
  | cons x xs ih =>
      constructor
      · intro h p hp q hq
        have hx : ∀ y ∈ xs, x = y := by
          intro y hy
          apply h (x, y)
          show (x, y) ∈ xs.map (fun z => (x, z)) ++ pairsOf xs
          exact List.mem_append.mpr (Or.inl (List.mem_map_of_mem _ hy))
        have hxs : ∀ p ∈ xs, ∀ q ∈ xs, p = q := by
          apply ih.mp
          intro pq hpq
          apply h pq
          show pq ∈ xs.map (fun z => (x, z)) ++ pairsOf xs
          exact List.mem_append.mpr (Or.inr hpq)
        rcases List.mem_cons.mp hp with hpx | hp <;> rcases List.mem_cons.mp hq with hqx | hq
        · rw [hpx, hqx]
        · rw [hpx]; exact hx q hq
        · rw [hqx]; exact (hx p hp).symm
        · exact hxs p hp q hq
      · intro h pq hpq
        obtain ⟨h1, h2⟩ := mem_pairsOf (x :: xs) pq hpq
        exact h pq.1 h1 pq.2 h2

lemma two_mul_length_pairsOf {β : Type} : ∀ l : List β,
    2 * (pairsOf l).length = l.length * (l.length - 1) := by
  intro l
  induction l with
  | nil => rfl
  | cons x xs ih =>
      have hlen : (pairsOf (x :: xs)).length = xs.length + (pairsOf xs).length := by
        simp [pairsOf]
      rw [hlen, List.length_cons, Nat.mul_add, ih]
      cases hk : xs.length with
      | zero => simp
      | succ m =>
          simp only [Nat.succ_sub_one, Nat.add_sub_cancel]
          ring

/-- Claim C5 counterexample — with a single particle (`N = 1`, permitted by
the configuration) there are no pairs and the source computes `np.mean` of
an empty list, which is NaN, not a non-negative mean that is zero for
identical positions; the embedding returns `none` for this undefined mean. -/
theorem diversity_single_counterexample :
    diversity [[(0 : ℝ)]] = none ∧ ∀ p ∈ [[(0 : ℝ)]], ∀ q ∈ [[(0 : ℝ)]], p = q := by
  constructor
  · rfl
  · simp

/-- Claim C5 amended — for every swarm of at least two particles with a
common dimension, `diversity` returns the mean of the `N*(N-1)/2` pairwise
Euclidean distances (the pair count satisfies `2*#pairs = N*(N-1)`); this
value is non-negative and is zero exactly when all particle positions are
identical.  For `N = 1` the mean is undefined (`np.mean([])` is NaN). -/
theorem diversity_spec (Dim : ℕ) (ps : List (List ℝ)) (h2 : 2 ≤ ps.length)
    (hlen : ∀ p ∈ ps, p.length = Dim) :
    2 * (pairsOf ps).length = ps.length * (ps.length - 1) ∧
    ∃ v : ℝ, diversity ps = some v ∧ 0 ≤ v ∧
      (v = 0 ↔ ∀ p ∈ ps, ∀ q ∈ ps, p = q) := by
  refine ⟨two_mul_length_pairsOf ps, ?_⟩
  have hpne : (pairsOf ps).length ≠ 0 := by
    have := two_mul_length_pairsOf ps
    intro h0
    rw [h0] at this
    have hps : ps.length * (ps.length - 1) = 0 := this.symm
    rcases Nat.mul_eq_zero.mp hps with h | h <;> omega
  have hdne : ((pairsOf ps).map
      (fun pq => normEuclid (vsub pq.1 pq.2))).length ≠ 0 := by
    simpa using hpne
  have hnn : ∀ d ∈ (pairsOf ps).map (fun pq => normEuclid (vsub pq.1 pq.2)), 0 ≤ d := by
    intro d hd
    obtain ⟨pq, _, rfl⟩ := List.mem_map.mp hd
    exact normEuclid_nonneg _
  refine ⟨((pairsOf ps).map (fun pq => normEuclid (vsub pq.1 pq.2))).sum /
    (((pairsOf ps).map (fun pq => normEuclid (vsub pq.1 pq.2))).length : ℝ), ?_, ?_, ?_⟩
  · unfold diversity
    dsimp only
    rw [if_neg hdne]
  · exact div_nonneg (List.sum_nonneg hnn) (by positivity)
  · rw [div_eq_zero_iff]
    have hcast : (((pairsOf ps).map
        (fun pq => normEuclid (vsub pq.1 pq.2))).length : ℝ) ≠ 0 := by
      exact_mod_cast hdne
    constructor
    · intro h
      rcases h with h | h
      swap
      · exact absurd h hcast
      have hall := (sum_eq_zero_iff_of_nonneg _ hnn).mp h
      apply (pairsOf_eq_iff ps).mp
      intro pq hpq
      have hz : normEuclid (vsub pq.1 pq.2) = 0 :=
        hall _ (List.mem_map.mpr ⟨pq, hpq, rfl⟩)
      have hmem := mem_pairsOf ps pq hpq
      have hl : pq.1.length = pq.2.length := by
        rw [hlen pq.1 hmem.1, hlen pq.2 hmem.2]
      exact (vsub_eq_zero_iff pq.1 pq.2 hl).mp ((normEuclid_eq_zero_iff _).mp hz)
    · intro hall
      left
      apply (sum_eq_zero_iff_of_nonneg _ hnn).mpr
      intro d hd
      obtain ⟨pq, hpq, rfl⟩ := List.mem_map.mp hd
      have hmem := mem_pairsOf ps pq hpq
      have heq : pq.1 = pq.2 := hall pq.1 hmem.1 pq.2 hmem.2
      apply (normEuclid_eq_zero_iff _).mpr
      apply (vsub_eq_zero_iff pq.1 pq.2 (by rw [heq])).mpr heq

/-- Witness for the amended C5: two identical one-dimensional positions. -/
theorem diversity_spec_witness :
    2 * (pairsOf [[(0 : ℝ)], [0]]).length =
      ([[(0 : ℝ)], [0]] : List (List ℝ)).length *
        (([[(0 : ℝ)], [0]] : List (List ℝ)).length - 1) ∧
    ∃ v : ℝ, diversity [[(0 : ℝ)], [0]] = some v ∧ 0 ≤ v ∧
      (v = 0 ↔ ∀ p ∈ [[(0 : ℝ)], [0]], ∀ q ∈ [[(0 : ℝ)], [0]], p = q) :=
  diversity_spec 1 [[(0 : ℝ)], [0]] (by norm_num) (by simp)

/-! ### Bounds on the Michalewicz objective and on a whole run -/

lemma sin_mul_pow_bounds (xi θ : ℝ) (h0 : 0 ≤ xi) (h1 : xi ≤ Real.pi) (m : ℕ) :
    0 ≤ Real.sin xi * Real.sin θ ^ (2 * m) ∧
      Real.sin xi * Real.sin θ ^ (2 * m) ≤ 1 := by
  have hs0 : 0 ≤ Real.sin xi := Real.sin_nonneg_of_nonneg_of_le_pi h0 h1
  have hs1 : Real.sin xi ≤ 1 := Real.sin_le_one xi
  have hp : Real.sin θ ^ (2 * m) = (Real.sin θ ^ 2) ^ m := pow_mul _ 2 m
  have hp0 : 0 ≤ Real.sin θ ^ (2 * m) := by
    rw [hp]
    exact pow_nonneg (sq_nonneg _) m
  have hp1 : Real.sin θ ^ (2 * m) ≤ 1 := by
    rw [hp]
    exact pow_le_one₀ (sq_nonneg _) (Real.sin_sq_le_one θ)
  exact ⟨mul_nonneg hs0 hp0, mul_le_one₀ hs1 hp0 hp1⟩

lemma michSum_bounds (m : ℕ) : ∀ (x : List ℝ) (i : ℕ),
    (∀ xi ∈ x, 0 ≤ xi ∧ xi ≤ Real.pi) →
    0 ≤ michSum m i x ∧ michSum m i x ≤ (x.length : ℝ) := by
  intro x
  induction x with
  | nil => intro i _; simp [michSum]
  | cons xi rest ih =>
      intro i hx
      obtain ⟨h0, h1⟩ := hx xi (List.mem_cons_self xi rest)
      obtain ⟨ht0, ht1⟩ :=
        sin_mul_pow_bounds xi (((i : ℝ) + 1) * xi ^ 2 / Real.pi) h0 h1 m
      obtain ⟨hr0, hr1⟩ := ih (i + 1) (fun y hy => hx y (List.mem_cons_of_mem xi hy))
      have hunf : michSum m i (xi :: rest) =
          Real.sin xi * Real.sin (((i : ℝ) + 1) * xi ^ 2 / Real.pi) ^ (2 * m)
            + michSum m (i + 1) rest := rfl
      rw [hunf]
      constructor
      · exact add_nonneg ht0 hr0
      · have hcast : ((xi :: rest).length : ℝ) = (rest.length : ℝ) + 1 := by
          push_cast [List.length_cons]
          ring
        rw [hcast]
        linarith

/-- The Michalewicz function with `m = 10` maps `[0, π]^D` into `[-D, 0]`. -/
lemma michalewicz_bounds (x : List ℝ) (hx : ∀ xi ∈ x, 0 ≤ xi ∧ xi ≤ Real.pi) :
    -(x.length : ℝ) ≤ michalewicz 10 x ∧ michalewicz 10 x ≤ 0 := by
  obtain ⟨h0, h1⟩ := michSum_bounds 10 x 0 hx
  unfold michalewicz
  constructor <;> linarith

lemma mem_stepParticles (f : List α → α) (lo hi w c1 c2 : α) (g : List α)
    (sw : List (Particle α)) (rs : List (List α × List α)) (q : Particle α)
    (hq : q ∈ stepParticles f lo hi w c1 c2 g sw rs) :
    ∃ p ∈ sw, ∃ r, q = stepOne f lo hi w c1 c2 g p r := by
  unfold stepParticles at hq
  obtain ⟨i, hi, hEq⟩ := List.getElem_of_mem hq
  have hi1 : i < sw.length := by
    simp only [List.length_zipWith] at hi
    omega
  have hi2 : i < rs.length := by
    simp only [List.length_zipWith] at hi
    omega
  refine ⟨sw[i], List.getElem_mem hi1, rs[i], ?_⟩
  rw [← hEq]
  exact List.getElem_zipWith

/-- One particle update keeps the position length bounded and, when the
objective maps short in-range vectors into `[A, B]`, keeps the personal best
inside `[A, B]`. -/
lemma stepOne_bounds (f : List α → α) (lo hi w c1 c2 : α) (g : List α)
    (p : Particle α) (r : List α × List α) (A B : α) (D : ℕ) (hlh : lo ≤ hi)
    (Hf : ∀ l : List α, (∀ x ∈ l, lo ≤ x ∧ x ≤ hi) → l.length ≤ D → A ≤ f l ∧ f l ≤ B)
    (hplen : p.position.length ≤ D) (hA : A ≤ p.best_value) (hB : p.best_value ≤ B) :
    (stepOne f lo hi w c1 c2 g p r).position.length ≤ D ∧
    A ≤ (stepOne f lo hi w c1 c2 g p r).best_value ∧
    (stepOne f lo hi w c1 c2 g p r).best_value ≤ B := by
  have hq : stepOne f lo hi w c1 c2 g p r =
      (p.update_velocity w c1 c2 g r.1 r.2).update_position f lo hi := rfl
  set q := p.update_velocity w c1 c2 g r.1 r.2 with hqdef
  have hqpos : q.position = p.position := rfl
  have hqbest : q.best_value = p.best_value := rfl
  have hnewpos : (q.update_position f lo hi).position =
      (vadd q.position q.velocity).map (clip lo hi) := update_position_position f lo hi q
  have hlen : (q.update_position f lo hi).position.length ≤ D := by
    rw [hnewpos]
    simp only [List.length_map, length_vadd, hqpos]
    omega
  have hrange : ∀ x ∈ (q.update_position f lo hi).position, lo ≤ x ∧ x ≤ hi := by
    rw [hnewpos]
    intro x hx
    obtain ⟨y, _, rfl⟩ := List.mem_map.mp hx
    exact ⟨clip_mem_lower lo hi y hlh, clip_mem_upper lo hi y⟩
  rw [hq]
  refine ⟨hlen, ?_⟩
  by_cases hc : f ((vadd q.position q.velocity).map (clip lo hi)) < q.best_value
  · obtain ⟨hbv, _⟩ := update_position_of_lt f lo hi q hc
    rw [hbv]
    have := Hf ((vadd q.position q.velocity).map (clip lo hi))
      (by rw [← hnewpos] at *; exact hrange) (by rw [← hnewpos] at *; exact hlen)
    exact this
  · obtain ⟨hbv, _⟩ := update_position_of_not_lt f lo hi q hc
    rw [hbv, hqbest]
    exact ⟨hA, hB⟩

/-- The run invariant for C10: position lengths stay at most `D` and all
recorded best values (personal and global) stay in `[A, B]`. -/
def BestsIn (A B : α) (D : ℕ) (st : SwarmState α) : Prop :=
  (∀ p ∈ st.swarm, p.position.length ≤ D ∧ A ≤ p.best_value ∧ p.best_value ≤ B) ∧
  A ≤ st.gbest_val ∧ st.gbest_val ≤ B

lemma psoIter_bounds (f : List α → α) (lo hi w c1 c2 : α)
    (rs : List (List α × List α)) (st : SwarmState α) (A B : α) (D : ℕ)
    (hlh : lo ≤ hi)
    (Hf : ∀ l : List α, (∀ x ∈ l, lo ≤ x ∧ x ≤ hi) → l.length ≤ D → A ≤ f l ∧ f l ≤ B)
    (hinv : BestsIn A B D st) :
    BestsIn A B D (psoIter f lo hi w c1 c2 rs st) := by
  obtain ⟨hsw, hgA, hgB⟩ := hinv
  have hsw' : ∀ q ∈ (psoIter f lo hi w c1 c2 rs st).swarm,
      q.position.length ≤ D ∧ A ≤ q.best_value ∧ q.best_value ≤ B := by
    intro q hq
    rw [psoIter_swarm] at hq
    obtain ⟨p, hp, r, rfl⟩ := mem_stepParticles f lo hi w c1 c2 _ _ _ q hq
    obtain ⟨h1, h2, h3⟩ := hsw p hp
    exact stepOne_bounds f lo hi w c1 c2 _ p r A B D hlh Hf h1 h2 h3
  refine ⟨hsw', ?_, ?_⟩ <;>
  · rw [psoIter_gbest_val]
    unfold updateGlobal
    cases hcb : bestOf (stepParticles f lo hi w c1 c2 st.gbest_pos st.swarm rs) with
    | none => dsimp only; assumption
    | some cb =>
        dsimp only
        split
        case isTrue _ =>
            have hmem := (bestOf_spec _ cb hcb).1
            rw [← psoIter_swarm f lo hi w c1 c2 rs st] at hmem
            have := hsw' cb hmem
            dsimp only
            tauto
        case isFalse _ => assumption

lemma psoIterN_bounds (f : List α → α) (lo hi w c1 c2 : α)
    (rnd : ℕ → List (List α × List α)) (st : SwarmState α) (A B : α) (D : ℕ)
    (hlh : lo ≤ hi)
    (Hf : ∀ l : List α, (∀ x ∈ l, lo ≤ x ∧ x ≤ hi) → l.length ≤ D → A ≤ f l ∧ f l ≤ B)
    (hinv : BestsIn A B D st) (n : ℕ) :
    BestsIn A B D (psoIterN f lo hi w c1 c2 rnd n st) := by
  induction n with
  | zero => exact hinv
  | succ m ihm =>
      rw [psoIterN_succ]
      exact psoIter_bounds f lo hi w c1 c2 (rnd m) _ A B D hlh Hf ihm

lemma initSwarm_bounds (f : List α → α) (lo hi : α) (uss : List (List α)) (A B : α)
    (D : ℕ) (hlh : lo ≤ hi) (hne : uss ≠ [])
    (Hf : ∀ l : List α, (∀ x ∈ l, lo ≤ x ∧ x ≤ hi) → l.length ≤ D → A ≤ f l ∧ f l ≤ B)
    (huss : ∀ us ∈ uss, us.length ≤ D ∧ ∀ u ∈ us, 0 ≤ u ∧ u ≤ 1) :
    BestsIn A B D (initSwarm f lo hi uss) := by
  have hsw : ∀ p ∈ (initSwarm f lo hi uss).swarm,
      p.position.length ≤ D ∧ A ≤ p.best_value ∧ p.best_value ≤ B := by
    intro p hp
    rw [initSwarm_swarm] at hp
    obtain ⟨us, hus, rfl⟩ := List.mem_map.mp hp
    obtain ⟨huslen, husval⟩ := huss us hus
    have hrange := (init_fields_and_range f lo hi us hlh husval).1
    rw [init_position] at hrange
    have hlenp : (sampleUniform lo hi us).length ≤ D := by
      simp [huslen]
    refine ⟨by simp [huslen], ?_⟩
    rw [init_best_value]
    exact Hf (sampleUniform lo hi us) hrange hlenp
  obtain ⟨gp, hgp, hval, _⟩ := initSwarm_gbest f lo hi uss hne
  have hmem := (bestOf_spec _ gp hgp).1
  obtain ⟨_, h2, h3⟩ := hsw gp hmem
  exact ⟨hsw, by rw [hval]; exact h2, by rw [hval]; exact h3⟩

/-- Claim C10 — the Michalewicz objective with `m = 10` satisfies
`-D ≤ michalewicz x ≤ 0` on `[0, π]^D`; consequently, in a run over the box
`[0, π]` (initial positions sampled inside the box, updated positions
clipped back into it) every personal best value and every global best value
stays in `[-D, 0]` at every iteration. -/
theorem michalewicz_and_run_bounds :
    (∀ x : List ℝ, (∀ xi ∈ x, 0 ≤ xi ∧ xi ≤ Real.pi) →
      -(x.length : ℝ) ≤ michalewicz 10 x ∧ michalewicz 10 x ≤ 0) ∧
    ∀ (D : ℕ) (w c1 c2 : ℝ) (rnd : ℕ → List (List ℝ × List ℝ))
      (uss : List (List ℝ)) (n : ℕ), uss ≠ [] →
      (∀ us ∈ uss, us.length ≤ D ∧ ∀ u ∈ us, 0 ≤ u ∧ u ≤ 1) →
      (∀ p ∈ (psoIterN (michalewicz 10) 0 Real.pi w c1 c2 rnd n
          (initSwarm (michalewicz 10) 0 Real.pi uss)).swarm,
        -(D : ℝ) ≤ p.best_value ∧ p.best_value ≤ 0) ∧
      -(D : ℝ) ≤ (psoIterN (michalewicz 10) 0 Real.pi w c1 c2 rnd n
          (initSwarm (michalewicz 10) 0 Real.pi uss)).gbest_val ∧
      (psoIterN (michalewicz 10) 0 Real.pi w c1 c2 rnd n
          (initSwarm (michalewicz 10) 0 Real.pi uss)).gbest_val ≤ 0 := by
  have hlh : (0 : ℝ) ≤ Real.pi := Real.pi_nonneg
  refine ⟨michalewicz_bounds, ?_⟩
  intro D w c1 c2 rnd uss n hne huss
  have Hf : ∀ l : List ℝ, (∀ x ∈ l, 0 ≤ x ∧ x ≤ Real.pi) → l.length ≤ D →
      -(D : ℝ) ≤ michalewicz 10 l ∧ michalewicz 10 l ≤ 0 := by
    intro l hl hlen
    obtain ⟨h1, h2⟩ := michalewicz_bounds l hl
    have hcast : (l.length : ℝ) ≤ (D : ℝ) := by exact_mod_cast hlen
    exact ⟨by linarith, h2⟩
  have hinv := psoIterN_bounds (michalewicz 10) 0 Real.pi w c1 c2 rnd
    (initSwarm (michalewicz 10) 0 Real.pi uss) (-(D : ℝ)) 0 D hlh Hf
    (initSwarm_bounds (michalewicz 10) 0 Real.pi uss (-(D : ℝ)) 0 D hlh hne Hf huss) n
  obtain ⟨hsw, hgA, hgB⟩ := hinv
  exact ⟨fun p hp => ⟨(hsw p hp).2.1, (hsw p hp).2.2⟩, hgA, hgB⟩

/-- Witness for C10: the zero vector in one dimension, and one iteration of
a one-particle run started at the origin. -/
theorem michalewicz_and_run_bounds_witness :
    (-(([(0 : ℝ)] : List ℝ).length : ℝ) ≤ michalewicz 10 [0] ∧
      michalewicz 10 [0] ≤ 0) ∧
    (∀ p ∈ (psoIterN (michalewicz 10) 0 Real.pi 0 0 0 (fun _ => []) 1
        (initSwarm (michalewicz 10) 0 Real.pi [[0]])).swarm,
      -((1 : ℕ) : ℝ) ≤ p.best_value ∧ p.best_value ≤ 0) ∧
    -((1 : ℕ) : ℝ) ≤ (psoIterN (michalewicz 10) 0 Real.pi 0 0 0 (fun _ => []) 1
        (initSwarm (michalewicz 10) 0 Real.pi [[0]])).gbest_val ∧
    (psoIterN (michalewicz 10) 0 Real.pi 0 0 0 (fun _ => []) 1
        (initSwarm (michalewicz 10) 0 Real.pi [[0]])).gbest_val ≤ 0 := by
  constructor
  · exact michalewicz_and_run_bounds.1 [0] (by simp [Real.pi_nonneg])
  · apply michalewicz_and_run_bounds.2 1 0 0 0 (fun _ => []) [[0]] 1
    · simp
    · intro us hus
      simp only [List.mem_singleton] at hus
      subst hus
      refine ⟨by simp, ?_⟩
      intro u hu
      simp only [List.mem_singleton] at hu
      subst hu
      norm_num

end PSO
